import Mathlib

/-!
Shallow embedding of `slice/slice_parallel.go` from the lancet repository
(`UniqueByParallel` and its local helper `removeDuplicate`), together with
theorems settling the specification claims about it.

Go slices become Lean `List`s, `int` becomes `Int` (with the observation that
every clamped thread count is non-negative, so the derived worker count lives
in `Nat`), and the division-by-zero panic that Go raises when computing
`chunkSize` with a zero thread count is modelled by an `Option` result
(`none` = runtime panic).  The goroutine fan-out/fan-in collapses to a `map`
over the chunk list: each worker's result is stored at its chunk index
(`results[r.index] = r.data`), so the merge phase reads the chunk results in
ascending chunk-index order regardless of completion order.
-/

namespace Lancet

/-- Embedding of the thread-count clamping at the top of `UniqueByParallel`:
`if numOfThreads <= 0 { numOfThreads = 1 } else if numOfThreads > len(slice)
{ numOfThreads = len(slice) }` followed by
`if numOfThreads > maxThreads { numOfThreads = maxThreads }` where
`maxThreads = runtime.NumCPU()` is taken as the parameter `cpuCount`. -/
def resolveW (numOfThreads : Int) (inputLen cpuCount : Nat) : Nat :=
  let n1 : Nat :=
    if numOfThreads ≤ 0 then 1
    else if numOfThreads > (inputLen : Int) then inputLen
    else numOfThreads.toNat
  if n1 > cpuCount then cpuCount else n1

/-- Embedding of the inner closure `removeDuplicate` of `UniqueByParallel`,
with the accumulating `result` slice made explicit: for each `item`, scan the
current `result` with `comparator(item, r)`; if any scan hits, drop the item,
otherwise append it. -/
def removeDuplicateAux (comparator : α → α → Bool) : List α → List α → List α
  | acc, [] => acc
  | acc, item :: rest =>
    if acc.any (fun r => comparator item r) then
      removeDuplicateAux comparator acc rest
    else
      removeDuplicateAux comparator (acc ++ [item]) rest

/-- Embedding of `removeDuplicate(items, comparator)`: the loop starts from an
empty `result`. -/
def removeDuplicate (items : List α) (comparator : α → α → Bool) : List α :=
  removeDuplicateAux comparator [] items

/-- Embedding of the chunking loop
`for i := 0; i < len(slice); i += chunkSize { chunks = append(chunks, slice[i:end]) }`
with `end = min(i+chunkSize, len)`.  For a non-empty list a `chunkSize` of `0`
would loop forever in Go; in every reachable call `chunkSize = 0` only happens
on the empty list, where the loop body never runs.
Iterated with an explicit fuel argument so that the recursion is structural
(hence kernel-computable).  When `chunkSize ≥ 1` the loop runs at most
`len(slice)` times, so `fuel = l.length` in `chunksOf` below is never
exhausted. -/
def chunksOfAux (chunkSize : Nat) : Nat → List α → List (List α)
  | 0, _ => []
  | _, [] => []
  | fuel + 1, l => l.take chunkSize :: chunksOfAux chunkSize fuel (l.drop chunkSize)

/-- Chunking of the whole input, starting the loop at index `0` with fuel
`l.length`: `l.take c` is `slice[i : min(i+c, len)]` and `l.drop c` advances
`i` by `c`. -/
def chunksOf (l : List α) (chunkSize : Nat) : List (List α) :=
  chunksOfAux chunkSize l.length l

/-- Embedding of the final merge loop of `UniqueByParallel`, with the `seen`
map made explicit as the set of elements of the accumulating `result` (the Go
code inserts into `seen` exactly when it appends to `result`, so `seen[item]`
holds iff `item` is an element of the accumulator): elements are appended the
first time their default-equality class shows up, later occurrences are
skipped. -/
def mergeDedupAux [DecidableEq α] : List α → List α → List α
  | acc, [] => acc
  | acc, item :: rest =>
    if item ∈ acc then mergeDedupAux acc rest
    else mergeDedupAux (acc ++ [item]) rest

/-- Merge phase over the concatenation of the chunk results in ascending
chunk-index order, starting from `result := []T{}`. -/
def mergeDedup [DecidableEq α] (l : List α) : List α :=
  mergeDedupAux [] l

/-- Everything `UniqueByParallel` does after the effective worker count `w`
has been resolved.  `w = 0` is the Go panic `integer divide by zero` in
`chunkSize := (len(slice) + numOfThreads - 1) / numOfThreads`, modelled as
`none`.  The goroutines compute `removeDuplicate` per chunk and the indexed
collection restores chunk order, so the chunk results are exactly
`chunks.map (removeDuplicate · comparator)` in chunk-index order. -/
def uniqueByParallelCore [DecidableEq α] (slice : List α) (w : Nat)
    (comparator : α → α → Bool) : Option (List α) :=
  if w = 0 then none
  else
    let chunkSize := (slice.length + w - 1) / w
    let chunks := chunksOf slice chunkSize
    let results := chunks.map (fun c => removeDuplicate c comparator)
    some (mergeDedup results.flatten)

/-- Embedding of `UniqueByParallel(slice, numOfThreads, comparator)`, with
`runtime.NumCPU()` exposed as the parameter `cpuCount` (in Go it is always at
least 1).  `none` models a runtime panic. -/
def UniqueByParallel [DecidableEq α] (slice : List α) (numOfThreads : Int)
    (cpuCount : Nat) (comparator : α → α → Bool) : Option (List α) :=
  uniqueByParallelCore slice (resolveW numOfThreads slice.length cpuCount) comparator

/-- Sanity check corresponding to the spec's Scenario A: `[1,2,2,3,1,4]` with
two workers and equality as the comparator yields `[1,2,3,4]`. -/
theorem scenarioA : UniqueByParallel [1, 2, 2, 3, 1, 4] 2 8 (fun a b => a == b) =
    some [1, 2, 3, 4] := by decide

/-! ### Lemmas about the chunking loop -/

theorem chunksOfAux_nil (c fuel : Nat) : chunksOfAux c fuel ([] : List α) = [] := by
  cases fuel <;> rfl

theorem chunksOfAux_flatten (c : Nat) (hc : c ≠ 0) :
    ∀ (fuel : Nat) (l : List α), l.length ≤ fuel →
      (chunksOfAux c fuel l).flatten = l := by
  intro fuel
  induction fuel with
  | zero =>
    intro l hl
    have : l = [] := List.eq_nil_of_length_eq_zero (Nat.le_zero.mp hl)
    subst this
    rfl
  | succ n ih =>
    intro l hl
    cases l with
    | nil => rfl
    | cons x xs =>
      simp only [chunksOfAux, List.flatten_cons]
      rw [ih (List.drop c (x :: xs))]
      · exact List.take_append_drop c (x :: xs)
      · simp only [List.length_drop, List.length_cons]
        simp only [List.length_cons] at hl
        omega

theorem chunksOf_flatten (l : List α) (c : Nat) (hc : c ≠ 0) :
    (chunksOf l c).flatten = l :=
  chunksOfAux_flatten c hc l.length l (Nat.le_refl _)

theorem chunksOfAux_length (c : Nat) (hc : c ≠ 0) :
    ∀ (fuel : Nat) (l : List α), l.length ≤ fuel →
      (chunksOfAux c fuel l).length = (l.length + c - 1) / c := by
  intro fuel
  induction fuel with
  | zero =>
    intro l hl
    have : l = [] := List.eq_nil_of_length_eq_zero (Nat.le_zero.mp hl)
    subst this
    simp only [chunksOfAux, List.length_nil]
    rw [Nat.div_eq_of_lt (by omega)]
  | succ n ih =>
    intro l hl
    cases l with
    | nil =>
      simp only [chunksOfAux, List.length_nil]
      rw [Nat.div_eq_of_lt (by omega)]
    | cons x xs =>
      simp only [chunksOfAux, List.length_cons]
      rw [ih (List.drop c (x :: xs))]
      · have h2 : (List.drop c (x :: xs)).length = xs.length + 1 - c := by
          simp only [List.length_drop, List.length_cons]
        rw [h2]
        have h4 : xs.length + 1 + c - 1 = xs.length + c := by omega
        by_cases hcase : c ≤ xs.length + 1
        · have h3 : xs.length + 1 - c + c - 1 = xs.length := by omega
          rw [h3, h4, Nat.add_div_right _ (Nat.pos_of_ne_zero hc)]
        · have h3 : xs.length + 1 - c + c - 1 = c - 1 := by omega
          rw [h3, h4, Nat.add_div_right _ (Nat.pos_of_ne_zero hc)]
          rw [Nat.div_eq_of_lt (by omega), Nat.div_eq_of_lt (by omega)]
      · simp only [List.length_drop, List.length_cons]
        simp only [List.length_cons] at hl
        omega

theorem chunksOf_length (l : List α) (c : Nat) (hc : c ≠ 0) :
    (chunksOf l c).length = (l.length + c - 1) / c :=
  chunksOfAux_length c hc l.length l (Nat.le_refl _)

theorem chunksOfAux_ne_nil (c : Nat) (hc : c ≠ 0) :
    ∀ (fuel : Nat) (l : List α), ([] : List α) ∉ chunksOfAux c fuel l := by
  intro fuel
  induction fuel with
  | zero => intro l; simp [chunksOfAux]
  | succ n ih =>
    intro l
    cases l with
    | nil => simp [chunksOfAux]
    | cons x xs =>
      simp only [chunksOfAux, List.mem_cons, not_or]
      constructor
      · intro h
        have := congrArg List.length h
        simp only [List.length_nil, List.length_take, List.length_cons] at this
        omega
      · exact ih _

theorem chunksOf_ne_nil (l : List α) (c : Nat) (hc : c ≠ 0) :
    ([] : List α) ∉ chunksOf l c :=
  chunksOfAux_ne_nil c hc l.length l

theorem chunksOfAux_get (c : Nat) :
    ∀ (fuel : Nat) (l : List α) (i : Nat) (h : i < (chunksOfAux c fuel l).length),
      (chunksOfAux c fuel l).get ⟨i, h⟩ = (l.drop (i * c)).take c := by
  intro fuel
  induction fuel with
  | zero =>
    intro l i h
    simp [chunksOfAux] at h
  | succ n ih =>
    intro l i h
    cases l with
    | nil => simp [chunksOfAux] at h
    | cons x xs =>
      cases i with
      | zero => simp [chunksOfAux]
      | succ i =>
        simp only [chunksOfAux, List.get_cons_succ]
        rw [ih]
        rw [List.drop_drop]
        congr 2
        ring

theorem chunksOf_get (l : List α) (c : Nat) (i : Nat)
    (h : i < (chunksOf l c).length) :
    (chunksOf l c).get ⟨i, h⟩ = (l.drop (i * c)).take c :=
  chunksOfAux_get c l.length l i h

/-- Chunking a non-empty list with a chunk size at least its length yields a
single chunk, the list itself. -/
theorem chunksOf_of_length_le (l : List α) (c : Nat) (hl : l ≠ [])
    (hc : l.length ≤ c) : chunksOf l c = [l] := by
  cases l with
  | nil => exact absurd rfl hl
  | cons x xs =>
    simp only [chunksOf, List.length_cons, chunksOfAux]
    rw [List.take_of_length_le (by simpa using hc),
      List.drop_eq_nil_of_le (by simpa using hc), chunksOfAux_nil]

/-! ### Specification-side restatements of the two deduplication passes

`specDedupeChunk` renders the spec's description of the chunk deduplicator
("keep an element iff the comparator matches it against no previously kept
element") without an accumulator: a kept element removes all later elements
the comparator matches against it.  `specFirstOcc` is the analogous
restatement of the merge pass ("emit an element the first time its
default-equality class is seen"). -/

def specDedupeChunk (cmp : α → α → Bool) : List α → List α
  | [] => []
  | x :: xs => x :: specDedupeChunk cmp (xs.filter (fun y => !(cmp y x)))
termination_by l => l.length
decreasing_by
  simp only [List.length_cons]
  exact Nat.lt_succ_of_le (List.length_filter_le _ _)

def specFirstOcc [DecidableEq α] : List α → List α
  | [] => []
  | x :: xs => x :: specFirstOcc (xs.filter (fun y => decide (y ≠ x)))
termination_by l => l.length
decreasing_by
  simp only [List.length_cons]
  exact Nat.lt_succ_of_le (List.length_filter_le _ _)

/-! ### Lemmas about the chunk deduplicator -/

theorem removeDuplicateAux_sublist (cmp : α → α → Bool) :
    ∀ (l acc : List α), (removeDuplicateAux cmp acc l).Sublist (acc ++ l) := by
  intro l
  induction l with
  | nil => intro acc; simp [removeDuplicateAux]
  | cons item rest ih =>
    intro acc
    simp only [removeDuplicateAux]
    by_cases h : acc.any (fun r => cmp item r)
    · simp only [h, if_true]
      exact (ih acc).trans
        (List.Sublist.append (List.Sublist.refl acc) (List.sublist_cons_self item rest))
    · simp only [h, if_false]
      have := ih (acc ++ [item])
      rwa [List.append_assoc, List.singleton_append] at this

theorem removeDuplicate_sublist (items : List α) (cmp : α → α → Bool) :
    (removeDuplicate items cmp).Sublist items :=
  removeDuplicateAux_sublist cmp items []

theorem removeDuplicateAux_eq_spec (cmp : α → α → Bool) :
    ∀ (l acc : List α),
      removeDuplicateAux cmp acc l =
        acc ++ specDedupeChunk cmp (l.filter (fun y => !(acc.any (fun r => cmp y r)))) := by
  intro l
  have hlen : ∀ (n : Nat) (l acc : List α), l.length ≤ n →
      removeDuplicateAux cmp acc l =
        acc ++ specDedupeChunk cmp (l.filter (fun y => !(acc.any (fun r => cmp y r)))) := by
    intro n
    induction n with
    | zero =>
      intro l acc hl
      have : l = [] := List.eq_nil_of_length_eq_zero (Nat.le_zero.mp hl)
      subst this
      simp [removeDuplicateAux, specDedupeChunk]
    | succ n ih =>
      intro l acc hl
      cases l with
      | nil => simp [removeDuplicateAux, specDedupeChunk]
      | cons item rest =>
        simp only [List.length_cons] at hl
        simp only [removeDuplicateAux, List.filter_cons]
        by_cases h : acc.any (fun r => cmp item r) = true
        · rw [if_pos h, h]
          simp only [Bool.not_true, Bool.false_eq_true, if_false]
          exact ih rest acc (by omega)
        · rw [if_neg h]
          rw [Bool.not_eq_true] at h
          rw [h]
          simp only [Bool.not_false, if_true]
          rw [ih rest (acc ++ [item]) (by omega)]
          rw [List.append_assoc, List.singleton_append]
          rw [specDedupeChunk, List.filter_filter]
          have hpred : (fun y => !((acc ++ [item]).any fun r => cmp y r))
              = (fun y => !(cmp y item) && !(acc.any fun r => cmp y r)) := by
            funext y
            simp only [List.any_append, List.any_cons, List.any_nil, Bool.or_false,
              Bool.not_or]
            rw [Bool.and_comm]
          rw [hpred]
  exact fun acc => hlen l.length l acc (Nat.le_refl _)

theorem removeDuplicate_eq_spec (items : List α) (cmp : α → α → Bool) :
    removeDuplicate items cmp = specDedupeChunk cmp items := by
  unfold removeDuplicate
  rw [removeDuplicateAux_eq_spec]
  simp only [List.any_nil, Bool.not_false, List.nil_append]
  congr 1
  exact List.filter_true items

theorem removeDuplicateAux_nodup [DecidableEq α] (cmp : α → α → Bool)
    (href : ∀ a, cmp a a = true) :
    ∀ (l acc : List α), acc.Nodup → (removeDuplicateAux cmp acc l).Nodup := by
  intro l
  induction l with
  | nil => intro acc hacc; exact hacc
  | cons item rest ih =>
    intro acc hacc
    simp only [removeDuplicateAux]
    by_cases h : acc.any (fun r => cmp item r) = true
    · rw [if_pos h]; exact ih acc hacc
    · rw [if_neg h]
      apply ih
      have hitem : item ∉ acc := by
        intro hmem
        exact h (List.any_eq_true.mpr ⟨item, hmem, href item⟩)
      rw [List.nodup_append]
      refine ⟨hacc, List.nodup_singleton _, ?_⟩
      intro a ha hb
      rw [List.mem_singleton] at hb
      subst hb
      exact hitem ha

theorem removeDuplicate_nodup [DecidableEq α] (items : List α) (cmp : α → α → Bool)
    (href : ∀ a, cmp a a = true) : (removeDuplicate items cmp).Nodup :=
  removeDuplicateAux_nodup cmp href items [] List.nodup_nil

/-! ### Lemmas about the merge pass -/

theorem mergeDedupAux_sublist [DecidableEq α] :
    ∀ (l acc : List α), (mergeDedupAux acc l).Sublist (acc ++ l) := by
  intro l
  induction l with
  | nil => intro acc; simp [mergeDedupAux]
  | cons item rest ih =>
    intro acc
    simp only [mergeDedupAux]
    by_cases h : item ∈ acc
    · rw [if_pos h]
      exact (ih acc).trans
        (List.Sublist.append (List.Sublist.refl acc) (List.sublist_cons_self item rest))
    · rw [if_neg h]
      have := ih (acc ++ [item])
      rwa [List.append_assoc, List.singleton_append] at this

theorem mergeDedup_sublist [DecidableEq α] (l : List α) :
    (mergeDedup l).Sublist l :=
  mergeDedupAux_sublist l []

theorem mergeDedupAux_nodup [DecidableEq α] :
    ∀ (l acc : List α), acc.Nodup → (mergeDedupAux acc l).Nodup := by
  intro l
  induction l with
  | nil => intro acc hacc; exact hacc
  | cons item rest ih =>
    intro acc hacc
    simp only [mergeDedupAux]
    by_cases h : item ∈ acc
    · rw [if_pos h]; exact ih acc hacc
    · rw [if_neg h]
      apply ih
      rw [List.nodup_append]
      refine ⟨hacc, List.nodup_singleton _, ?_⟩
      intro a ha hb
      rw [List.mem_singleton] at hb
      subst hb
      exact h ha

theorem mergeDedup_nodup [DecidableEq α] (l : List α) : (mergeDedup l).Nodup :=
  mergeDedupAux_nodup l [] List.nodup_nil

theorem mergeDedupAux_eq_spec [DecidableEq α] :
    ∀ (l acc : List α),
      mergeDedupAux acc l = acc ++ specFirstOcc (l.filter (fun y => decide (y ∉ acc))) := by
  intro l
  have hlen : ∀ (n : Nat) (l acc : List α), l.length ≤ n →
      mergeDedupAux acc l = acc ++ specFirstOcc (l.filter (fun y => decide (y ∉ acc))) := by
    intro n
    induction n with
    | zero =>
      intro l acc hl
      have : l = [] := List.eq_nil_of_length_eq_zero (Nat.le_zero.mp hl)
      subst this
      simp [mergeDedupAux, specFirstOcc]
    | succ n ih =>
      intro l acc hl
      cases l with
      | nil => simp [mergeDedupAux, specFirstOcc]
      | cons item rest =>
        simp only [List.length_cons] at hl
        simp only [mergeDedupAux, List.filter_cons]
        by_cases h : item ∈ acc
        · rw [if_pos h]
          have hd : decide (item ∉ acc) = false := by simp [h]
          rw [hd]
          simp only [Bool.false_eq_true, if_false]
          exact ih rest acc (by omega)
        · rw [if_neg h]
          have hd : decide (item ∉ acc) = true := by simp [h]
          rw [hd]
          simp only [if_true]
          rw [ih rest (acc ++ [item]) (by omega)]
          rw [List.append_assoc, List.singleton_append]
          rw [specFirstOcc, List.filter_filter]
          have hpred : (fun y => decide (y ∉ acc ++ [item]))
              = (fun y => decide (y ≠ item) && decide (y ∉ acc)) := by
            funext y
            simp only [List.mem_append, List.mem_singleton, not_or, Bool.decide_and, ne_eq]
            rw [Bool.and_comm]
          rw [hpred]
  exact fun acc => hlen l.length l acc (Nat.le_refl _)

theorem mergeDedup_eq_spec [DecidableEq α] (l : List α) :
    mergeDedup l = specFirstOcc l := by
  unfold mergeDedup
  rw [mergeDedupAux_eq_spec]
  simp only [List.not_mem_nil, not_false_iff, decide_True, List.nil_append]
  congr 1
  exact List.filter_true l

theorem mergeDedupAux_of_nodup [DecidableEq α] :
    ∀ (l acc : List α), l.Nodup → (∀ x ∈ l, x ∉ acc) → mergeDedupAux acc l = acc ++ l := by
  intro l
  induction l with
  | nil => intro acc _ _; simp [mergeDedupAux]
  | cons item rest ih =>
    intro acc hnd hdisj
    simp only [mergeDedupAux]
    rw [if_neg (hdisj item (List.mem_cons_self item rest))]
    rw [List.nodup_cons] at hnd
    rw [ih (acc ++ [item]) hnd.2]
    · rw [List.append_assoc, List.singleton_append]
    · intro x hx
      rw [List.mem_append, List.mem_singleton]
      push_neg
      exact ⟨hdisj x (List.mem_cons_of_mem item hx), fun he => hnd.1 (he ▸ hx)⟩

theorem mergeDedup_of_nodup [DecidableEq α] (l : List α) (h : l.Nodup) :
    mergeDedup l = l := by
  unfold mergeDedup
  rw [mergeDedupAux_of_nodup l [] h (by intro x _; exact List.not_mem_nil x)]
  rw [List.nil_append]

/-- Flattening the image of a per-chunk sublist-producing function yields a
sublist of the flattened chunks. -/
theorem flatten_map_sublist (f : List α → List α) (h : ∀ c, (f c).Sublist c) :
    ∀ L : List (List α), ((L.map f).flatten).Sublist L.flatten := by
  intro L
  induction L with
  | nil => simp
  | cons c rest ih =>
    simp only [List.map_cons, List.flatten_cons]
    exact List.Sublist.append (h c) ih

/-! ### Lemmas about the effective worker count -/

theorem resolveW_pos (p : Int) (len cpu : Nat) (hlen : 1 ≤ len) (hcpu : 1 ≤ cpu) :
    1 ≤ resolveW p len cpu := by
  simp only [resolveW]
  split_ifs <;> omega

theorem resolveW_eq_of_nonpos (p : Int) (len cpu : Nat) (hp : p ≤ 0) (hlen : 1 ≤ len) :
    resolveW p len cpu = resolveW 1 len cpu := by
  simp only [resolveW]
  split_ifs <;> omega

theorem resolveW_eq_of_gt_len (p : Int) (len cpu : Nat) (hp : (len : Int) < p)
    (hlen : 1 ≤ len) : resolveW p len cpu = resolveW len len cpu := by
  simp only [resolveW]
  split_ifs <;> omega

theorem resolveW_eq_of_gt_cpu (p : Int) (len cpu : Nat) (hp : (cpu : Int) < p) :
    resolveW p len cpu = resolveW cpu len cpu := by
  simp only [resolveW]
  split_ifs <;> omega

/-- Specialisation of the pipeline after the worker count resolved to `1`:
the single chunk is the whole input, so the final result is the merge pass
applied to the chunk deduplication of the whole input. -/
theorem uniqueByParallelCore_one [DecidableEq α] (slice : List α)
    (cmp : α → α → Bool) (hne : slice ≠ []) :
    uniqueByParallelCore slice 1 cmp = some (mergeDedup (removeDuplicate slice cmp)) := by
  simp only [uniqueByParallelCore]
  rw [if_neg (by decide : ¬ (1 = 0))]
  simp only [Nat.add_sub_cancel, Nat.div_one]
  rw [chunksOf_of_length_le slice slice.length hne (Nat.le_refl _)]
  simp only [List.map_cons, List.map_nil, List.flatten_cons, List.flatten_nil,
    List.append_nil]

/-! ### Claim theorems -/

/-- C1 (code bug): the claim says an empty input yields an empty result for
every `requestedParallelism`.  The code only does so for non-positive values;
for any positive `numOfThreads` the clamp `numOfThreads = len(slice)` sets the
thread count to `0` and `chunkSize := (len(slice)+numOfThreads-1)/numOfThreads`
panics with `integer divide by zero` (modelled as `none`). -/
theorem emptyInput_positive_threads_divide_by_zero :
    UniqueByParallel ([] : List Nat) 2 4 (fun a b => a == b) = none ∧
    UniqueByParallel ([] : List Nat) 0 4 (fun a b => a == b) = some [] := by
  constructor <;> decide

/-- C2 (counterexample): with the comparator that never matches, input
`[1,1]` and `requestedParallelism = 1` (so the effective worker count is 1),
the single-chunk result `[1,1]` is further reduced by the default-equality
merge pass to `[1]`, so the output is not the comparator-based left-to-right
distinct of the whole input. -/
theorem singleChunk_not_comparator_distinct :
    UniqueByParallel [1, 1] 1 4 (fun _ _ => false) ≠
      some (removeDuplicate [1, 1] (fun _ _ => false)) := by decide

/-- C2 (amended): for every non-empty input and every comparator that matches
each element with itself (in particular any comparator implementing an
equivalence), when the effective worker count is 1 the output of
`UniqueByParallel` is exactly the comparator-based left-to-right distinct of
the entire input, and the merge phase changes nothing. -/
theorem singleChunk_eq_removeDuplicate [DecidableEq α] (slice : List α) (p : Int)
    (cpu : Nat) (cmp : α → α → Bool) (hne : slice ≠ [])
    (hW : resolveW p slice.length cpu = 1) (href : ∀ a, cmp a a = true) :
    UniqueByParallel slice p cpu cmp = some (removeDuplicate slice cmp) := by
  unfold UniqueByParallel
  rw [hW, uniqueByParallelCore_one slice cmp hne,
    mergeDedup_of_nodup _ (removeDuplicate_nodup slice cmp href)]

/-- C2 (witness): concrete instance of the amended single-chunk theorem. -/
theorem singleChunk_eq_removeDuplicate_witness :
    UniqueByParallel [1, 2, 1] 1 4 (fun a b => a == b) =
      some (removeDuplicate [1, 2, 1] (fun a b => a == b)) :=
  singleChunk_eq_removeDuplicate [1, 2, 1] 1 4 (fun a b => a == b)
    (by decide) (by decide) (fun a => by simp)

/-- C3 (counterexample): on the empty input, `requestedParallelism = 0` and
`requestedParallelism = 1` do not behave the same: the former returns an empty
result while the latter hits the divide-by-zero panic, so the claimed
clamping equivalence fails on empty inputs. -/
theorem clamping_fails_on_empty_input :
    UniqueByParallel ([] : List Nat) 0 4 (fun a b => a == b) ≠
      UniqueByParallel ([] : List Nat) 1 4 (fun a b => a == b) := by decide

/-- C3 (amended): for every non-empty input, a `requestedParallelism ≤ 0`
behaves as `1` and a `requestedParallelism > len(input)` behaves as
`len(input)`; and for every input (empty included) a value exceeding the core
count behaves as the core count. -/
theorem clamping_equivalences [DecidableEq α] (slice : List α) (p : Int)
    (cpu : Nat) (cmp : α → α → Bool) :
    (slice ≠ [] → p ≤ 0 →
      UniqueByParallel slice p cpu cmp = UniqueByParallel slice 1 cpu cmp) ∧
    (slice ≠ [] → (slice.length : Int) < p →
      UniqueByParallel slice p cpu cmp =
        UniqueByParallel slice (slice.length : Int) cpu cmp) ∧
    ((cpu : Int) < p →
      UniqueByParallel slice p cpu cmp = UniqueByParallel slice (cpu : Int) cpu cmp) := by
  refine ⟨fun hne h => ?_, fun hne h => ?_, fun h => ?_⟩ <;> unfold UniqueByParallel
  · exact congrArg (fun w => uniqueByParallelCore slice w cmp)
      (resolveW_eq_of_nonpos p slice.length cpu h (List.length_pos.mpr hne))
  · exact congrArg (fun w => uniqueByParallelCore slice w cmp)
      (resolveW_eq_of_gt_len p slice.length cpu h (List.length_pos.mpr hne))
  · exact congrArg (fun w => uniqueByParallelCore slice w cmp)
      (resolveW_eq_of_gt_cpu p slice.length cpu h)

/-- C3 (witness): the three clamping equivalences instantiated on `[1, 2]`
with core count 4, at `requestedParallelism` `-1`, `5` and `7`, and the
core-count equivalence additionally on the empty input (where both sides
panic). -/
theorem clamping_equivalences_witness :
    (UniqueByParallel [1, 2] (-1) 4 (fun a b => a == b) =
      UniqueByParallel [1, 2] 1 4 (fun a b => a == b)) ∧
    (UniqueByParallel [1, 2] 5 4 (fun a b => a == b) =
      UniqueByParallel [1, 2] 2 4 (fun a b => a == b)) ∧
    (UniqueByParallel [1, 2] 7 4 (fun a b => a == b) =
      UniqueByParallel [1, 2] 4 4 (fun a b => a == b)) ∧
    (UniqueByParallel ([] : List Nat) 7 4 (fun a b => a == b) =
      UniqueByParallel ([] : List Nat) 4 4 (fun a b => a == b)) :=
  ⟨(clamping_equivalences [1, 2] (-1) 4 (fun a b => a == b)).1 (by decide) (by decide),
   (clamping_equivalences [1, 2] 5 4 (fun a b => a == b)).2.1 (by decide) (by decide),
   (clamping_equivalences [1, 2] 7 4 (fun a b => a == b)).2.2 (by decide),
   (clamping_equivalences ([] : List Nat) 7 4 (fun a b => a == b)).2.2 (by decide)⟩

/-- Case-insensitive equality on strings, character by character. -/
def ciEq (a b : String) : Bool :=
  a.data.map Char.toLower == b.data.map Char.toLower

/-- C4: the merge pass keeps an element exactly when its default-equality
class has not been seen earlier in the traversal of the chunk results in
ascending chunk-index order (first conjunct: the merge pass equals the
first-occurrence filter under default equality, for every element type and
every input, independently of any comparator), and in particular on
`["a","b","A"]` with two workers and a case-insensitive comparator the output
keeps all three strings. -/
theorem merge_uses_default_equality :
    (∀ (β : Type) (inst : DecidableEq β) (l : List β),
        @mergeDedup β inst l = @specFirstOcc β inst l) ∧
    UniqueByParallel ["a", "b", "A"] 2 8 ciEq = some ["a", "b", "A"] := by
  constructor
  · intro β inst l
    exact mergeDedup_eq_spec l
  · decide

/-- C5: whenever `UniqueByParallel` returns a result (does not panic), the
result is a subsequence of the input — surviving elements keep their relative
order — and contains no two elements equal under default equality. -/
theorem output_sublist_and_nodup [DecidableEq α] (slice : List α) (p : Int)
    (cpu : Nat) (cmp : α → α → Bool) (out : List α)
    (h : UniqueByParallel slice p cpu cmp = some out) :
    out.Sublist slice ∧ out.Nodup := by
  simp only [UniqueByParallel, uniqueByParallelCore] at h
  by_cases hw : resolveW p slice.length cpu = 0
  · rw [if_pos hw] at h
    exact absurd h (by simp)
  · rw [if_neg hw] at h
    rw [Option.some.injEq] at h
    subst h
    refine ⟨?_, mergeDedup_nodup _⟩
    by_cases hs : slice = []
    · subst hs
      exact (mergeDedup_sublist _).trans
        (flatten_map_sublist _ (fun c => removeDuplicate_sublist c cmp) _)
    · have hlen : 1 ≤ slice.length := List.length_pos.mpr hs
      have hcs : (slice.length + resolveW p slice.length cpu - 1) /
          resolveW p slice.length cpu ≠ 0 := by
        rw [← Nat.one_le_iff_ne_zero, Nat.one_le_div_iff (by omega)]
        omega
      have h12 := (mergeDedup_sublist _).trans
        (flatten_map_sublist (fun c => removeDuplicate c cmp)
          (fun c => removeDuplicate_sublist c cmp)
          (chunksOf slice ((slice.length + resolveW p slice.length cpu - 1) /
            resolveW p slice.length cpu)))
      rw [chunksOf_flatten _ _ hcs] at h12
      exact h12

/-- C5 (witness): concrete instance on `[1, 2, 1]` with two workers. -/
theorem output_sublist_and_nodup_witness :
    List.Sublist [1, 2] [1, 2, 1] ∧ List.Nodup [1, 2] :=
  output_sublist_and_nodup [1, 2, 1] 2 4 (fun a b => a == b) [1, 2] (by decide)

/-- C6: the chunk deduplicator keeps an element exactly when the comparator
matches it against no previously kept element: the accumulating loop of
`removeDuplicate` equals the specification-side first-occurrence filter under
the comparator. -/
theorem chunk_dedup_keeps_iff_no_kept_match (cmp : α → α → Bool) (items : List α) :
    removeDuplicate items cmp = specDedupeChunk cmp items :=
  removeDuplicate_eq_spec items cmp

/-- C7: for a non-empty input and effective worker count `w ≥ 1`, the chunk
size `cs = (len + w - 1) / w` is `ceil(len/w)` (characterised by
`(cs-1)·w < len ≤ cs·w`), chunk `i` is `input[i·cs : min((i+1)·cs, len)]`
(`(slice.drop (i·cs)).take cs`), no chunk is empty, and the in-order
concatenation of the chunks is exactly the input — hence contiguous, no gaps,
no overlaps.  Determinism is immediate: `chunksOf` is a pure function of the
input and the chunk size. -/
theorem partition_correct (slice : List α) (w cs i : Nat)
    (hne : slice ≠ []) (hw : 1 ≤ w) (hcs : cs = (slice.length + w - 1) / w)
    (hi : i < (chunksOf slice cs).length) :
    slice.length ≤ cs * w ∧ (cs - 1) * w < slice.length ∧
    (chunksOf slice cs).flatten = slice ∧
    ([] : List α) ∉ chunksOf slice cs ∧
    (chunksOf slice cs).get ⟨i, hi⟩ = (slice.drop (i * cs)).take cs := by
  have hlen : 1 ≤ slice.length := List.length_pos.mpr hne
  subst hcs
  have hcs1 : 1 ≤ (slice.length + w - 1) / w := by
    rw [Nat.one_le_div_iff (by omega)]
    omega
  have lb : (slice.length + w - 1) / w * w ≤ slice.length + w - 1 :=
    Nat.div_mul_le_self _ _
  have ub : slice.length + w - 1 < (slice.length + w - 1) / w * w + w := by
    have h0 : (slice.length + w - 1) / w < (slice.length + w - 1) / w + 1 :=
      Nat.lt_succ_self _
    rw [Nat.div_lt_iff_lt_mul (by omega), Nat.succ_mul] at h0
    exact h0
  refine ⟨by omega, ?_, chunksOf_flatten _ _ (by omega), chunksOf_ne_nil _ _ (by omega),
    chunksOf_get _ _ _ hi⟩
  rw [Nat.sub_mul, Nat.one_mul]
  omega

/-- C7 (witness): the partition facts instantiated on `[1, 2, 3]` with two
workers (chunk size 2, chunk index 1). -/
theorem partition_correct_witness :
    List.length [1, 2, 3] ≤ 2 * 2 ∧ (2 - 1) * 2 < List.length [1, 2, 3] ∧
    (chunksOf [1, 2, 3] 2).flatten = [1, 2, 3] ∧
    ([] : List Nat) ∉ chunksOf [1, 2, 3] 2 ∧
    (chunksOf [1, 2, 3] 2).get ⟨1, by decide⟩ = (List.drop (1 * 2) [1, 2, 3]).take 2 :=
  partition_correct [1, 2, 3] 2 2 1 (by decide) (by decide) (by decide) (by decide)

/-- C8 (counterexample): on the six-element input with requested parallelism 4
and core count 8, the effective worker count is 4, yet the partitioner
produces only 3 chunks (chunk size `ceil(6/4) = 2`, and `ceil(6/2) = 3`), so
"exactly W chunks" — and hence "collects exactly W pairs" — fails. -/
theorem chunk_count_below_worker_count :
    resolveW 4 (List.length [1, 2, 3, 4, 5, 6]) 8 = 4 ∧
    (chunksOf [1, 2, 3, 4, 5, 6]
        ((List.length [1, 2, 3, 4, 5, 6] +
            resolveW 4 (List.length [1, 2, 3, 4, 5, 6]) 8 - 1) /
          resolveW 4 (List.length [1, 2, 3, 4, 5, 6]) 8)).length ≠
      resolveW 4 (List.length [1, 2, 3, 4, 5, 6]) 8 := by
  constructor <;> decide

/-- C8 (amended): for every non-empty input, the partitioner produces exactly
`ceil(len / chunkSize)` chunks — at most the effective worker count `W`, and
possibly fewer — and one worker runs per chunk, so the dispatcher collects
exactly one (chunkIndex, result) pair per chunk before the merge phase. -/
theorem chunk_count_and_collection (slice : List α) (p : Int) (cpu : Nat)
    (cmp : α → α → Bool) (w cs : Nat) (hne : slice ≠ []) (hcpu : 1 ≤ cpu)
    (hw : w = resolveW p slice.length cpu)
    (hcs : cs = (slice.length + w - 1) / w) :
    (chunksOf slice cs).length = (slice.length + cs - 1) / cs ∧
    (chunksOf slice cs).length ≤ w ∧
    ((chunksOf slice cs).map (fun c => removeDuplicate c cmp)).length =
      (chunksOf slice cs).length := by
  have hlen : 1 ≤ slice.length := List.length_pos.mpr hne
  have hw1 : 1 ≤ w := hw ▸ resolveW_pos p slice.length cpu hlen hcpu
  have hcs1 : 1 ≤ cs := by
    rw [hcs, Nat.one_le_div_iff (by omega)]
    omega
  have hcount := chunksOf_length slice cs (by omega)
  refine ⟨hcount, ?_, List.length_map _ _⟩
  rw [hcount]
  have h0 : (slice.length + w - 1) / w < (slice.length + w - 1) / w + 1 :=
    Nat.lt_succ_self _
  rw [Nat.div_lt_iff_lt_mul (by omega), Nat.succ_mul] at h0
  have hlb : slice.length ≤ cs * w := by
    rw [hcs]
    omega
  rw [Nat.div_le_iff_le_mul_add_pred (by omega)]
  omega

/-- C8 (witness): the amended chunk-count facts instantiated on
`[1, 2, 3, 4, 5, 6]` with requested parallelism 4 and core count 8
(effective worker count 4, chunk size 2, 3 chunks). -/
theorem chunk_count_and_collection_witness :
    (chunksOf [1, 2, 3, 4, 5, 6] 2).length =
      (List.length [1, 2, 3, 4, 5, 6] + 2 - 1) / 2 ∧
    (chunksOf [1, 2, 3, 4, 5, 6] 2).length ≤ 4 ∧
    ((chunksOf [1, 2, 3, 4, 5, 6] 2).map
        (fun c => removeDuplicate c (fun a b => a == b))).length =
      (chunksOf [1, 2, 3, 4, 5, 6] 2).length :=
  chunk_count_and_collection [1, 2, 3, 4, 5, 6] 4 8 (fun a b => a == b) 4 2
    (by decide) (by decide) (by decide) (by decide)

end Lancet
